import Mathlib

/-!
Shallow embedding of the cursor layer of org-rs
(`src/rust/element/src/cursor.rs`) and verification of its specification.

Modelling conventions:
* A text buffer (`&str`) is a `List Nat` of its UTF-8 bytes; offsets are `Nat`.
* `Option` models both `Option` results and out-of-range panics of slice
  indexing (a panicking call never returns in Rust; the claims only exercise
  in-range offsets, which we keep explicit through hypotheses).
* The external pattern engine (the `regex` crate) is embedded for literal
  patterns only: for a regex that is a plain literal, `Regex::find` returns
  the leftmost occurrence of the literal in the haystack, which is the
  documented behaviour we translate.
* `char` values are represented by the byte sequence of their UTF-8 unit;
  a charset (`&str` argument of `skip_chars_*`) is the list of its units,
  and `str::contains(char)` is membership of the unit in that list.
-/

namespace OrgCursor

/-- Number of bytes of the UTF-8 unit led by byte `b`
(`CharMetric::len_utf8_from_first_byte` in cursor.rs). -/
def len_utf8_from_first_byte (b : Nat) : Nat :=
  if b < 0x80 then 1 else if b < 0xE0 then 2 else if b < 0xF0 then 3 else 4

/-- Is `b` a UTF-8 continuation byte (high bits `10`)? -/
def isCont (b : Nat) : Bool := decide (0x80 ≤ b) && decide (b < 0xC0)

/-- Rust `str::is_char_boundary`: true at 0 and at the length of the string,
false past the end, and otherwise true iff the byte is not a continuation
byte. -/
def is_char_boundary (s : List Nat) (o : Nat) : Bool :=
  if o = 0 then true
  else
    match s.get? o with
    | some b => !(isCont b)
    | none => decide (o = s.length)

/-- Largest character boundary `≤ b` (the loop inside `CharMetric::prev`
walks back one byte at a time until `is_char_boundary` holds; boundary 0
always stops it). -/
def prevB (s : List Nat) : Nat → Nat
  | 0 => 0
  | b + 1 => if is_char_boundary s (b + 1) then b + 1 else prevB s b

namespace CharMetric

/-- `CharMetric::is_boundary`. -/
def is_boundary (s : List Nat) (o : Nat) : Bool := is_char_boundary s o

/-- `CharMetric::prev`: `None` at 0, otherwise the nearest boundary strictly
before `o`. -/
def prev (s : List Nat) (o : Nat) : Option Nat :=
  match o with
  | 0 => none
  | b + 1 => some (prevB s b)

/-- `CharMetric::next`: `None` at end of text, otherwise the offset plus the
encoded length of the byte found there.  (Indexing past the end panics in
Rust; that case is `none` here and is excluded by the claims.) -/
def next (s : List Nat) (o : Nat) : Option Nat :=
  if o = s.length then none
  else
    match s.get? o with
    | some b => some (o + len_utf8_from_first_byte b)
    | none => none

end CharMetric

/-- First index holding a line-feed byte (`memchr(b'\n', ..)`). -/
def memchrNl : List Nat → Option Nat
  | [] => none
  | b :: rest => if b = 10 then some 0 else (memchrNl rest).map (· + 1)

/-- Last index holding a line-feed byte (`memrchr(b'\n', ..)`). -/
def memrchrNl : List Nat → Option Nat
  | [] => none
  | b :: rest =>
    match memrchrNl rest with
    | some i => some (i + 1)
    | none => if b = 10 then some 0 else none

namespace NewlineMetric

/-- `NewlineMetric::is_boundary`: offset 0 is never a boundary; otherwise the
previous byte must be a line feed. -/
def is_boundary (s : List Nat) (o : Nat) : Bool :=
  if o = 0 then false else s.get? (o - 1) == some 10

/-- `NewlineMetric::prev`: last line feed strictly before `offset - 1`,
plus one.  (The Rust code asserts `offset > 0`; at 0 the slice underflows,
which the claims never exercise.) -/
def prev (s : List Nat) (o : Nat) : Option Nat :=
  (memrchrNl (s.take (o - 1))).map (· + 1)

/-- `NewlineMetric::next`: first line feed at or after `offset`, plus one. -/
def next (s : List Nat) (o : Nat) : Option Nat :=
  (memchrNl (s.drop o)).map (fun p => o + p + 1)

/-- Default method `Metric::at_or_prev` instantiated at `NewlineMetric`. -/
def at_or_prev (s : List Nat) (o : Nat) : Option Nat :=
  if is_boundary s o then some o else prev s o

end NewlineMetric

/-- `StrCursor`: a borrowed buffer plus a byte position. -/
structure StrCursor where
  data : List Nat
  pos : Nat
deriving DecidableEq, Repr

namespace StrCursor

/-- `StrCursor::set`. -/
def set (c : StrCursor) (p : Nat) : StrCursor := { c with pos := p }

/-- `StrCursor::inc`: unchecked addition. -/
def inc (c : StrCursor) (n : Nat) : StrCursor := { c with pos := c.pos + n }

/-- `StrCursor::dec`: saturating subtraction (the Rust guard `if dec > pos`
is exactly truncated `Nat` subtraction). -/
def dec (c : StrCursor) (n : Nat) : StrCursor := { c with pos := c.pos - n }

/-- `StrCursor::next::<CharMetric>()`: move to the next boundary, or leave
the position unchanged and return `None`. -/
def nextChar (c : StrCursor) : Option Nat × StrCursor :=
  match CharMetric.next c.data c.pos with
  | some l => (some l, c.set l)
  | none => (none, c)

/-- `StrCursor::prev::<CharMetric>()`. -/
def prevChar (c : StrCursor) : Option Nat × StrCursor :=
  match CharMetric.prev c.data c.pos with
  | some l => (some l, c.set l)
  | none => (none, c)

/-- `StrCursor::next::<NewlineMetric>()`. -/
def nextNl (c : StrCursor) : Option Nat × StrCursor :=
  match NewlineMetric.next c.data c.pos with
  | some l => (some l, c.set l)
  | none => (none, c)

/-- `StrCursor::prev::<NewlineMetric>()`. -/
def prevNl (c : StrCursor) : Option Nat × StrCursor :=
  match NewlineMetric.prev c.data c.pos with
  | some l => (some l, c.set l)
  | none => (none, c)

/-- Cursor-level `at_or_prev::<NewlineMetric>()`.  The `StrCursor` wrapper
for this trait method is not part of the sources; it is the `Metric`
default method `at_or_prev` (cursor.rs lines 50-56) lifted to the cursor
exactly like the `next`/`prev` wrappers above (on success the cursor moves
to the returned boundary). -/
def atOrPrevNl (c : StrCursor) : Option Nat × StrCursor :=
  match NewlineMetric.at_or_prev c.data c.pos with
  | some l => (some l, c.set l)
  | none => (none, c)

/-- Modelled from the spec: `get_next_char` is called by the sources
(`skip_whitespace`, `skip_chars_forward`, `char_after`, the tests) but its
definition is not under src/.  Per §4.2 (the character lexeme decodes the
unit bracketed by character-metric boundaries) and the in-src tests
(`essentials`: reading a char returns it and advances the position past its
bytes), it decodes the character starting at the current position, advances
past it and returns it; `None` at end of buffer.  The decoded char is
represented by its UTF-8 unit bytes. -/
def get_next_char (c : StrCursor) : Option (List Nat) × StrCursor :=
  match c.data.get? c.pos with
  | none => (none, c)
  | some b =>
    let n := OrgCursor.len_utf8_from_first_byte b
    (some ((c.data.drop c.pos).take n), c.set (c.pos + n))

/-- Modelled from the spec: `get_prev_char` is likewise absent from src/.
Symmetric to `get_next_char` (§4.2): it moves back to the start of the
character ending at the current position and returns that character;
`None` at offset 0. -/
def get_prev_char (c : StrCursor) : Option (List Nat) × StrCursor :=
  match CharMetric.prev c.data c.pos with
  | none => (none, c)
  | some a => (some ((c.data.drop a).take (c.pos - a)), c.set a)

/-- Movement phase of `goto_line_begin`: if the position is non-zero and
`at_or_prev::<NewlineMetric>` fails, set 0 (the `&&` short-circuit means
`at_or_prev` runs, and moves on success, only when `pos != 0`). -/
def goto_line_begin (c : StrCursor) : Nat × StrCursor :=
  if c.pos = 0 then (0, c)
  else
    match c.atOrPrevNl with
    | (some _, c1) => (c1.pos, c1)
    | (none, c1) => (0, c1.set 0)

/-- `goto_next_line`: next newline boundary, or end of buffer. -/
def goto_next_line (c : StrCursor) : Nat × StrCursor :=
  match c.nextNl with
  | (none, c1) => (c1.data.length, c1.set c1.data.length)
  | (some x, c1) => (x, c1)

/-- `goto_prev_line`: normalize to line begin, then one more newline
boundary back (0 if none). -/
def goto_prev_line (c : StrCursor) : Nat × StrCursor :=
  let c1 := (goto_line_begin c).2
  if c1.pos = 0 then (0, c1)
  else
    match c1.prevNl with
    | (none, c2) => (0, c2.set 0)
    | (some x, c2) => (x, c2)

/-- Iterate `goto_next_line` (the `for _p in 0..k` loops). -/
def iterNextLine : Nat → StrCursor → StrCursor
  | 0, c => c
  | k + 1, c => iterNextLine k (goto_next_line c).2

/-- Backward loop of `line_beginning_position`: `prev::<NewlineMetric>`,
with `set(0)` and break on failure. -/
def lbpPrevLoop : Nat → StrCursor → StrCursor
  | 0, c => c
  | k + 1, c =>
    match c.prevNl with
    | (none, c1) => c1.set 0
    | (some _, c1) => lbpPrevLoop k c1

/-- Movement phase of `line_beginning_position` (everything before the
save/restore wrapper). -/
def lbpScan (c : StrCursor) (n : Option Int) : StrCursor :=
  match n with
  | none => (goto_line_begin c).2
  | some 1 => (goto_line_begin c).2
  | some x =>
    if x > 1 then iterNextLine (x - 1).toNat c
    else
      let cb := (goto_line_begin c).2
      if cb.pos ≠ 0 then lbpPrevLoop (x - 1).natAbs cb else cb

/-- `line_beginning_position(n)`: save position, run the movement phase,
read the resulting position, restore (cursor.rs lines 327-356). -/
def line_beginning_position (c : StrCursor) (n : Option Int) : Nat × StrCursor :=
  let c1 := lbpScan c n
  (c1.pos, c1.set c.pos)

/-- Backward loop of `line_end_position`: `prev::<NewlineMetric>` with a
bare break (no `set(0)`) on failure. -/
def lepPrevLoop : Nat → StrCursor → StrCursor
  | 0, c => c
  | k + 1, c =>
    match c.prevNl with
    | (none, c1) => c1
    | (some _, c1) => lepPrevLoop k c1

/-- Movement phase of `line_end_position`: forward `n` next-lines for
`n > 1` (`for _p in 0..x`), one for `None`/`Some 1`, and `|x| + 1`
newline-prevs (`for p in 0..=x.abs()`) when `x ≤ 0` and the position is
non-zero. -/
def lepScan (c : StrCursor) (n : Option Int) : StrCursor :=
  match n with
  | none => (goto_next_line c).2
  | some 1 => (goto_next_line c).2
  | some x =>
    if x > 1 then iterNextLine x.toNat c
    else if c.pos ≠ 0 then lepPrevLoop (x.natAbs + 1) c
    else c

/-- `line_end_position(n)`: movement phase, then one character-metric step
back (`unwrap_or(0)`), then restore the saved position
(cursor.rs lines 364-389). -/
def line_end_position (c : StrCursor) (n : Option Int) : Nat × StrCursor :=
  let c1 := lepScan c n
  ((CharMetric.prev c1.data c1.pos).getD 0, c1.set c.pos)

/-- Leftmost start of an occurrence of `lit` in `hay` (the first element of
`str::match_indices`, and `Regex::find` for a literal pattern). -/
def firstMatch : List Nat → List Nat → Option Nat
  | [], lit => if lit.isEmpty then some 0 else none
  | h :: t, lit =>
    if lit <+: (h :: t) then some 0 else (firstMatch t lit).map (· + 1)

/-- Successive non-overlapping leftmost occurrences, as enumerated by
`str::match_indices`.  `fuel` only bounds the recursion: each occurrence of
a non-empty literal consumes at least one byte, so `hay.length + 1` steps
always suffice. -/
def matchIdxAux : Nat → List Nat → List Nat → Nat → List Nat
  | 0, _, _, _ => []
  | fuel + 1, hay, lit, base =>
    match firstMatch hay lit with
    | none => []
    | some j =>
      (base + j) :: matchIdxAux fuel (hay.drop (j + lit.length)) lit (base + j + lit.length)

/-- `str::match_indices` start offsets.  An empty pattern matches at every
character boundary (including the end of the haystack). -/
def matchIndices (hay lit : List Nat) : List Nat :=
  if lit.isEmpty then (List.range (hay.length + 1)).filter (fun i => is_char_boundary hay i)
  else matchIdxAux (hay.length + 1) hay lit 0

/-- The iterator loop of `search_forward`: walk the match starts, reject as
soon as a match ends past `bound`, succeed when the running index `i`
reaches `count`. -/
def searchForwardGo (pos litLen bound count : Nat) : List Nat → Nat → Option Nat
  | [], _ => none
  | r :: rest, i =>
    if pos + r + litLen > bound then none
    else if count = i then some (pos + r + litLen)
    else searchForwardGo pos litLen bound count rest (i + 1)

/-- `search_forward(str, bound, count)` (cursor.rs lines 452-492): `count`
defaults to 1, `bound` to the buffer length; fail outright when
`bound < pos`; otherwise scan `data[pos..]` for the `count`-th occurrence,
move to its end on success. -/
def search_forward (c : StrCursor) (lit : List Nat) (bound count : Option Nat) :
    Option Nat × StrCursor :=
  let count := count.getD 1
  let bound := bound.getD c.data.length
  let pos := c.pos
  if bound < pos then (none, c)
  else
    match searchForwardGo pos lit.length bound count (matchIndices (c.data.drop pos) lit) 1 with
    | some r => (some r, c.set r)
    | none => (none, c)

/-- Does `needle` occur in `hay` (Rust `str::contains(&str)`)? -/
def containsSub (hay needle : List Nat) : Bool := (firstMatch hay needle).isSome

/-- UTF-8 bytes of the pattern-source fragments `r"\n"`, `r"\r"` and
`r"[[:space:]]"`. -/
def bsN : List Nat := [92, 110]

def bsR : List Nat := [92, 114]

def spaceCls : List Nat := [91, 91, 58, 115, 112, 97, 99, 101, 58, 93, 93]

/-- `is_multiline_regex` (cursor.rs lines 585-591): the pattern source
contains one of the three indicator substrings. -/
def is_multiline_regex (src : List Nat) : Bool :=
  containsSub src bsN || containsSub src bsR || containsSub src spaceCls

/-- `looking_at(re)` for a literal pattern `lit` (whose regex source is the
literal itself): compute the window end — rest of buffer when the pattern
is classified multiline, otherwise up to (excluding) the line feed ending
the current line — and run the engine's leftmost `find` on the window.
Start/end offsets are relative to the window, as with `Match` in Rust.
`capturing_at` has the identical window and match logic. -/
def looking_at (c : StrCursor) (lit : List Nat) : Option (Nat × Nat) :=
  let e :=
    if !is_multiline_regex lit then
      ((NewlineMetric.next c.data c.pos).map (· - 1)).getD c.data.length
    else c.data.length
  (firstMatch ((c.data.drop c.pos).take (e - c.pos)) lit).map (fun j => (j, j + lit.length))

/-- A pure wrapper recording that `looking_at` takes `&self`: the cursor
cannot change. -/
def lookingAtStep (c : StrCursor) (lit : List Nat) : Option (Nat × Nat) × StrCursor :=
  (looking_at c lit, c)

/-- `re_search_forward(re, bound)` for a literal pattern: unanchored leftmost
match in `[pos, bound)`; on success return the absolute interval and move to
its end (cursor.rs lines 506-522). -/
def re_search_forward (c : StrCursor) (lit : List Nat) (bound : Option Nat) :
    Option (Nat × Nat) × StrCursor :=
  let e := bound.getD c.data.length
  if e ≤ c.pos then (none, c)
  else
    match firstMatch ((c.data.drop c.pos).take (e - c.pos)) lit with
    | none => (none, c)
    | some j => (some (c.pos + j, c.pos + j + lit.length), c.set (c.pos + j + lit.length))

/-- Loop of `skip_chars_forward`: read a char; if it is not in the charset,
step back and stop; if `count + pos > limit`, step back and stop; else
count it and continue.  `fuel` only bounds the recursion (each iteration
advances at least one byte, so `data.length + 1` suffices). -/
def skipFwdGo (cs : List (List Nat)) (pos limit : Nat) :
    Nat → StrCursor → Nat → Nat × StrCursor
  | 0, c, count => (count, c)
  | fuel + 1, c, count =>
    match get_next_char c with
    | (none, c1) => (count, c1)
    | (some u, c1) =>
      if u ∈ cs then
        if count + pos > limit then (count, (get_prev_char c1).2)
        else skipFwdGo cs pos limit fuel c1 (count + 1)
      else (count, (get_prev_char c1).2)

/-- `skip_chars_forward(str, limit)` (cursor.rs lines 525-549): limit
defaults to the buffer length; return 0 when already at/past the limit. -/
def skip_chars_forward (c : StrCursor) (cs : List (List Nat)) (limit : Option Nat) :
    Nat × StrCursor :=
  let pos := c.pos
  let limit := limit.getD c.data.length
  if pos ≥ limit then (0, c)
  else skipFwdGo cs pos limit (c.data.length + 1) c 0

/-- Loop of `skip_chars_backward`: read the previous char; if it is not in
the charset, step forward and stop; if the new position is below `limit`,
step forward and stop; else count it and continue. -/
def skipBwdGo (cs : List (List Nat)) (limit : Nat) :
    Nat → StrCursor → Nat → Nat × StrCursor
  | 0, c, count => (count, c)
  | fuel + 1, c, count =>
    match get_prev_char c with
    | (none, c1) => (count, c1)
    | (some u, c1) =>
      if u ∈ cs then
        if c1.pos < limit then (count, (get_next_char c1).2)
        else skipBwdGo cs limit fuel c1 (count + 1)
      else (count, (get_next_char c1).2)

/-- `skip_chars_backward(str, limit)` (cursor.rs lines 558-581): limit
defaults to 0; return 0 when already at/below the limit. -/
def skip_chars_backward (c : StrCursor) (cs : List (List Nat)) (limit : Option Nat) :
    Nat × StrCursor :=
  let limit := limit.getD 0
  if c.pos ≤ limit then (0, c)
  else skipBwdGo cs limit (c.pos + 1) c 0

end StrCursor

/-- Structural UTF-8 validity scan: `k` pending continuation bytes.  A lead
byte must not be a continuation byte and announces
`len_utf8_from_first_byte - 1` following continuation bytes. -/
def utf8ValidAux : List Nat → Nat → Bool
  | [], 0 => true
  | [], _ + 1 => false
  | b :: rest, 0 =>
    if isCont b then false else utf8ValidAux rest (len_utf8_from_first_byte b - 1)
  | b :: rest, k + 1 => if isCont b then utf8ValidAux rest k else false

/-- The byte list is well-formed UTF-8 at the structural level guaranteed by
Rust `&str` (each unit is a non-continuation lead byte followed by exactly
the announced number of continuation bytes). -/
def utf8Valid (s : List Nat) : Bool := utf8ValidAux s 0

/-- Bytes of an ASCII string, for concrete test inputs. -/
def asciiBytes (s : String) : List Nat := s.data.map Char.toNat

/-- End offset of the `k`-th (1-based) occurrence of `lit` at or after `pos`
(occurrences as enumerated by `match_indices`: successive non-overlapping
leftmost matches). -/
def kthOccEnd (s : List Nat) (pos : Nat) (lit : List Nat) (k : Nat) : Option Nat :=
  ((StrCursor.matchIndices (s.drop pos) lit).get? (k - 1)).map (fun m => pos + m + lit.length)

/-- The buffer of spec Example 2 / the repo's line-position tests:
`"One\nTwo\nThi\nFo4\nFiv\nSix\n7en"`. -/
def ex2Buf : List Nat := asciiBytes "One\nTwo\nThi\nFo4\nFiv\nSix\n7en"

/-- The buffer of spec Example 3 / the repo's `search_forward` test. -/
def ex3Buf : List Nat :=
  asciiBytes "onetwothreefouronetwothreeonetwothreeonetwothreefouroneabababa"

/-- The literal `"one"`. -/
def oneLit : List Nat := asciiBytes "one"

/-! ### Character-boundary helper lemmas -/

theorem is_char_boundary_zero (s : List Nat) : is_char_boundary s 0 = true := rfl

theorem is_char_boundary_le (s : List Nat) (o : Nat)
    (h : is_char_boundary s o = true) : o ≤ s.length := by
  unfold is_char_boundary at h
  split at h
  · omega
  · cases hg : s.get? o with
    | some b =>
      obtain ⟨hlt, -⟩ := List.get?_eq_some.mp hg
      exact Nat.le_of_lt hlt
    | none =>
      rw [hg] at h
      have : o = s.length := by simpa using h
      omega

theorem prevB_le (s : List Nat) (b : Nat) : prevB s b ≤ b := by
  induction b with
  | zero => simp [prevB]
  | succ b ih =>
    unfold prevB
    split
    · exact Nat.le_refl _
    · exact Nat.le_trans ih (Nat.le_succ _)

theorem prevB_boundary (s : List Nat) (b : Nat) :
    is_char_boundary s (prevB s b) = true := by
  induction b with
  | zero => simp [prevB, is_char_boundary_zero]
  | succ b ih =>
    unfold prevB
    split
    · assumption
    · exact ih

theorem prevB_max (s : List Nat) (b j : Nat)
    (hj : is_char_boundary s j = true) (hle : j ≤ b) : j ≤ prevB s b := by
  induction b with
  | zero => simpa [prevB] using hle
  | succ b ih =>
    unfold prevB
    split
    · exact hle
    · rename_i hnot
      rcases Nat.lt_or_ge j (b + 1) with hlt | hge
      · exact ih (Nat.lt_succ_iff.mp hlt)
      · have hj' : j = b + 1 := Nat.le_antisymm hle hge
        exact absurd (hj' ▸ hj) hnot

theorem prevB_eq_of_boundary (s : List Nat) (b : Nat)
    (h : is_char_boundary s b = true) : prevB s b = b :=
  Nat.le_antisymm (prevB_le s b) (prevB_max s b b h (Nat.le_refl b))

/-! ### UTF-8 structural validity -/

theorem len_utf8_pos (b : Nat) : 1 ≤ len_utf8_from_first_byte b := by
  unfold len_utf8_from_first_byte
  split
  · omega
  split
  · omega
  split
  · omega
  · omega

theorem validAux_split (k : Nat) :
    ∀ l : List Nat, utf8ValidAux l k = true →
      (l.take k).all isCont = true ∧ k ≤ l.length ∧ utf8Valid (l.drop k) = true := by
  induction k with
  | zero =>
    intro l h
    simpa [utf8Valid] using h
  | succ k ih =>
    intro l h
    cases l with
    | nil => simp [utf8ValidAux] at h
    | cons b t =>
      unfold utf8ValidAux at h
      by_cases hc : isCont b = true
      · rw [if_pos hc] at h
        obtain ⟨h1, h2, h3⟩ := ih t h
        refine ⟨?_, by simpa using Nat.succ_le_succ h2, by simpa using h3⟩
        simpa [hc] using h1
      · rw [if_neg hc] at h
        exact absurd h (by simp)

theorem valid_cons (b : Nat) (rest : List Nat)
    (h : utf8Valid (b :: rest) = true) :
    isCont b = false ∧
      (rest.take (len_utf8_from_first_byte b - 1)).all isCont = true ∧
      len_utf8_from_first_byte b - 1 ≤ rest.length ∧
      utf8Valid (rest.drop (len_utf8_from_first_byte b - 1)) = true := by
  unfold utf8Valid utf8ValidAux at h
  by_cases hc : isCont b = true
  · rw [if_pos hc] at h; exact absurd h (by simp)
  · rw [if_neg hc] at h
    obtain ⟨h1, h2, h3⟩ := validAux_split _ rest h
    exact ⟨Bool.of_not_eq_true hc, h1, h2, h3⟩

theorem valid_head_not_cont (s : List Nat) (hv : utf8Valid s = true)
    (b : Nat) (hb : s.get? 0 = some b) : isCont b = false := by
  cases s with
  | nil => simp at hb
  | cons x t =>
    obtain ⟨h1, -, -, -⟩ := valid_cons x t hv
    have hxb : x = b := by simpa using hb
    exact hxb ▸ h1

theorem valid_decomp (x : Nat) (rest : List Nat) (hv : utf8Valid (x :: rest) = true) :
    ∃ u t, rest = u ++ t ∧ u.length + 1 = len_utf8_from_first_byte x ∧
      u.all isCont = true ∧ utf8Valid t = true := by
  obtain ⟨-, hcont, hlen1, hvt⟩ := valid_cons x rest hv
  refine ⟨rest.take (len_utf8_from_first_byte x - 1),
    rest.drop (len_utf8_from_first_byte x - 1),
    (List.take_append_drop _ _).symm, ?_, hcont, hvt⟩
  rw [List.length_take]
  have := len_utf8_pos x
  omega

theorem is_char_boundary_of_get (s : List Nat) (o b : Nat) (h0 : o ≠ 0)
    (hg : s.get? o = some b) : is_char_boundary s o = !(isCont b) := by
  unfold is_char_boundary
  rw [if_neg h0, hg]

theorem is_char_boundary_of_none (s : List Nat) (o : Nat) (h0 : o ≠ 0)
    (hg : s.get? o = none) : is_char_boundary s o = decide (o = s.length) := by
  unfold is_char_boundary
  rw [if_neg h0, hg]

theorem shift_get (b : Nat) (u t : List Nat) (k : Nat) :
    (b :: (u ++ t)).get? (u.length + 1 + k) = t.get? k := by
  have h1 : u.length + 1 + k = (u.length + k) + 1 := by omega
  rw [h1]
  show (u ++ t).get? (u.length + k) = t.get? k
  rw [List.get?_append_right (by omega)]
  congr 1
  omega

theorem shift_mid (b : Nat) (u t : List Nat) (hu : u.all isCont = true) :
    ∀ j, 0 < j → j < u.length + 1 → is_char_boundary (b :: (u ++ t)) j = false := by
  intro j hj0 hjn
  obtain ⟨i, rfl⟩ : ∃ i, j = i + 1 := ⟨j - 1, by omega⟩
  have hi : i < u.length := by omega
  cases hcu : u.get? i with
  | none =>
    have := List.get?_eq_none.mp hcu
    omega
  | some c =>
    have hg : (b :: (u ++ t)).get? (i + 1) = some c := by
      show (u ++ t).get? i = some c
      rw [List.get?_append hi]
      exact hcu
    rw [is_char_boundary_of_get _ _ _ (by omega) hg]
    have hc : isCont c = true := List.all_eq_true.mp hu c (List.get?_mem hcu)
    simp [hc]

theorem shift_boundary (b : Nat) (u t : List Nat) (ht : utf8Valid t = true) (k : Nat) :
    is_char_boundary (b :: (u ++ t)) (u.length + 1 + k) = is_char_boundary t k := by
  have hlen : (b :: (u ++ t)).length = u.length + 1 + t.length := by
    simp
    omega
  cases k with
  | zero =>
    rw [is_char_boundary_zero t]
    cases t with
    | nil =>
      have hg : (b :: (u ++ [])).get? (u.length + 1 + 0) = none := by
        rw [shift_get]
        rfl
      rw [is_char_boundary_of_none _ _ (by omega) hg]
      simp at hlen ⊢
    | cons c t2 =>
      have hg : (b :: (u ++ (c :: t2))).get? (u.length + 1 + 0) = some c := by
        rw [shift_get]
        rfl
      rw [is_char_boundary_of_get _ _ _ (by omega) hg]
      have hc : isCont c = false := valid_head_not_cont _ ht c rfl
      simp [hc]
  | succ k =>
    cases hg : t.get? (k + 1) with
    | some c =>
      rw [is_char_boundary_of_get _ _ _ (by omega) (by rw [shift_get]; exact hg),
        is_char_boundary_of_get _ _ _ (by omega) hg]
    | none =>
      rw [is_char_boundary_of_none _ _ (by omega) (by rw [shift_get]; exact hg),
        is_char_boundary_of_none _ _ (by omega) hg, hlen]
      rw [decide_eq_decide]
      omega

theorem utf8_step :
    ∀ (N : Nat) (s : List Nat), s.length ≤ N → utf8Valid s = true →
    ∀ o, is_char_boundary s o = true → o < s.length →
    ∃ b, s.get? o = some b ∧
      o + len_utf8_from_first_byte b ≤ s.length ∧
      is_char_boundary s (o + len_utf8_from_first_byte b) = true ∧
      ∀ j, o < j → j < o + len_utf8_from_first_byte b → is_char_boundary s j = false := by
  intro N
  induction N with
  | zero =>
    intro s hN hv o hb ho
    omega
  | succ N ih =>
    intro s hN hv o hb ho
    cases s with
    | nil => simp at ho
    | cons x rest =>
      obtain ⟨u, t, rfl, hul, hu, ht⟩ := valid_decomp x rest hv
      have hslen : (x :: (u ++ t)).length = u.length + 1 + t.length := by
        simp
        omega
      rcases Nat.eq_zero_or_pos o with rfl | hopos
      · refine ⟨x, rfl, ?_, ?_, ?_⟩
        · omega
        · have := shift_boundary x u t ht 0
          rw [← hul]
          simpa [is_char_boundary_zero] using this
        · intro j hj0 hjn
          exact shift_mid x u t hu j hj0 (by omega)
      · have hon : u.length + 1 ≤ o := by
          by_contra hcon
          have := shift_mid x u t hu o hopos (by omega)
          rw [this] at hb
          exact absurd hb (by simp)
        obtain ⟨k, rfl⟩ : ∃ k, o = u.length + 1 + k := ⟨o - (u.length + 1), by omega⟩
        have hbt : is_char_boundary t k = true := by
          rw [← shift_boundary x u t ht k]
          exact hb
        have hkt : k < t.length := by omega
        have htN : t.length ≤ N := by
          simp at hN
          omega
        obtain ⟨b, hgt, hle, hbn, hmid⟩ := ih t htN ht k hbt hkt
        refine ⟨b, ?_, by omega, ?_, ?_⟩
        · rw [shift_get]
          exact hgt
        · have heq : u.length + 1 + k + len_utf8_from_first_byte b =
              u.length + 1 + (k + len_utf8_from_first_byte b) := by omega
          rw [heq, shift_boundary x u t ht]
          exact hbn
        · intro j hj0 hjn
          obtain ⟨j2, rfl⟩ : ∃ j2, j = u.length + 1 + j2 :=
            ⟨j - (u.length + 1), by omega⟩
          rw [shift_boundary x u t ht]
          exact hmid j2 (by omega) (by omega)

theorem next_boundary (s : List Nat) (o : Nat) (hv : utf8Valid s = true)
    (hb : is_char_boundary s o = true) (ho : o < s.length) :
    ∃ m, CharMetric.next s o = some m ∧ o < m ∧ m ≤ s.length ∧
      is_char_boundary s m = true ∧
      ∀ j, o < j → j < m → is_char_boundary s j = false := by
  obtain ⟨b, hg, hle, hbn, hmid⟩ := utf8_step s.length s (Nat.le_refl _) hv o hb ho
  refine ⟨o + len_utf8_from_first_byte b, ?_, ?_, hle, hbn, hmid⟩
  · unfold CharMetric.next
    rw [if_neg (by omega), hg]
  · have := len_utf8_pos b
    omega

theorem char_next_then_prev (s : List Nat) (o : Nat) (hv : utf8Valid s = true)
    (hb : is_char_boundary s o = true) :
    ∀ m, CharMetric.next s o = some m → CharMetric.prev s m = some o := by
  intro m hm
  have holen : o ≤ s.length := is_char_boundary_le s o hb
  have holt : o < s.length := by
    rcases Nat.lt_or_ge o s.length with h | h
    · exact h
    · have : o = s.length := by omega
      unfold CharMetric.next at hm
      rw [if_pos this] at hm
      simp at hm
  obtain ⟨m2, hm2, hlt, hle, hbm, hmid⟩ := next_boundary s o hv hb holt
  rw [hm] at hm2
  obtain rfl : m = m2 := by simpa using hm2
  obtain ⟨m', rfl⟩ : ∃ m', m = m' + 1 := ⟨m - 1, by omega⟩
  show some (prevB s m') = some (o)
  have h1 : o ≤ prevB s m' := prevB_max s m' o hb (by omega)
  have h2 : prevB s m' ≤ o := by
    by_contra hcon
    have hfalse := hmid (prevB s m') (by omega) (by have := prevB_le s m'; omega)
    rw [prevB_boundary s m'] at hfalse
    exact absurd hfalse (by simp)
  have : prevB s m' = o := by omega
  rw [this]

theorem char_prev_then_next (s : List Nat) (o : Nat) (hv : utf8Valid s = true)
    (hb : is_char_boundary s o = true) :
    ∀ a, CharMetric.prev s o = some a → CharMetric.next s a = some o := by
  intro a ha
  have holen : o ≤ s.length := is_char_boundary_le s o hb
  obtain ⟨o', rfl⟩ : ∃ o', o = o' + 1 := by
    cases o with
    | zero => simp [CharMetric.prev] at ha
    | succ o' => exact ⟨o', rfl⟩
  have haeq : a = prevB s o' := by simpa [CharMetric.prev] using ha.symm
  have hab : is_char_boundary s a = true := haeq ▸ prevB_boundary s o'
  have hao : a ≤ o' := haeq ▸ prevB_le s o'
  obtain ⟨m, hm, hlt, hle, hbm, hmid⟩ :=
    next_boundary s a hv hab (by omega)
  rcases Nat.lt_trichotomy m (o' + 1) with h | h | h
  · exfalso
    have := prevB_max s o' m hbm (by omega)
    omega
  · rw [hm, h]
  · exfalso
    have hfalse := hmid (o' + 1) (by omega) h
    rw [hb] at hfalse
    exact absurd hfalse (by simp)

/-! ### Line-feed search lemmas -/

theorem memchrNl_some (l : List Nat) (p : Nat) (h : memchrNl l = some p) :
    p < l.length ∧ l.get? p = some 10 := by
  induction l generalizing p with
  | nil => simp [memchrNl] at h
  | cons b rest ih =>
    unfold memchrNl at h
    split at h
    · rename_i hb
      obtain rfl : p = 0 := by simpa using h.symm
      simp [hb]
    · cases hm : memchrNl rest with
      | none => rw [hm] at h; simp at h
      | some q =>
        rw [hm] at h
        obtain rfl : p = q + 1 := by simpa using h.symm
        obtain ⟨h1, h2⟩ := ih q hm
        exact ⟨by simpa using Nat.succ_lt_succ h1, by simpa using h2⟩

theorem memchrNl_some_take (l : List Nat) (p : Nat) (h : memchrNl l = some p) :
    l.take p = l.takeWhile (fun b => !(b == 10)) := by
  induction l generalizing p with
  | nil => simp [memchrNl] at h
  | cons b rest ih =>
    unfold memchrNl at h
    split at h
    · rename_i hb
      obtain rfl : p = 0 := by simpa using h.symm
      simp [List.takeWhile, hb]
    · rename_i hb
      cases hm : memchrNl rest with
      | none => rw [hm] at h; simp at h
      | some q =>
        rw [hm] at h
        obtain rfl : p = q + 1 := by simpa using h.symm
        have hb' : (fun b => !(b == 10)) b = true := by simpa using hb
        simp [List.takeWhile, hb', ih q hm]

theorem memchrNl_none_takeWhile (l : List Nat) (h : memchrNl l = none) :
    l.takeWhile (fun b => !(b == 10)) = l := by
  induction l with
  | nil => simp
  | cons b rest ih =>
    unfold memchrNl at h
    split at h
    · simp at h
    · rename_i hb
      cases hm : memchrNl rest with
      | some q => rw [hm] at h; simp at h
      | none =>
        have hb' : (fun b => !(b == 10)) b = true := by simpa using hb
        simp [List.takeWhile, hb', ih hm]

theorem memrchrNl_some (l : List Nat) (i : Nat) (h : memrchrNl l = some i) :
    i < l.length ∧ l.get? i = some 10 := by
  induction l generalizing i with
  | nil => simp [memrchrNl] at h
  | cons b rest ih =>
    unfold memrchrNl at h
    split at h
    · rename_i q hm
      obtain rfl : i = q + 1 := by simpa using h.symm
      obtain ⟨h1, h2⟩ := ih q hm
      exact ⟨by simpa using Nat.succ_lt_succ h1, by simpa using h2⟩
    · rename_i hm
      split at h
      · rename_i hb
        obtain rfl : i = 0 := by simpa using h.symm
        simp [hb]
      · simp at h

theorem nlNext_bounds (s : List Nat) (o t : Nat)
    (h : NewlineMetric.next s o = some t) :
    1 ≤ t ∧ t ≤ s.length ∧ o < t ∧ s.get? (t - 1) = some 10 := by
  unfold NewlineMetric.next at h
  cases hm : memchrNl (s.drop o) with
  | none => rw [hm] at h; simp at h
  | some p =>
    rw [hm] at h
    obtain rfl : t = o + p + 1 := by simpa using h.symm
    obtain ⟨h1, h2⟩ := memchrNl_some _ p hm
    rw [List.length_drop] at h1
    refine ⟨by omega, by omega, by omega, ?_⟩
    rw [List.get?_drop] at h2
    simpa using h2

theorem nlPrev_bounds (s : List Nat) (o p : Nat)
    (h : NewlineMetric.prev s o = some p) :
    1 ≤ p ∧ p + 1 ≤ o ∧ p ≤ s.length ∧ s.get? (p - 1) = some 10 := by
  unfold NewlineMetric.prev at h
  cases hm : memrchrNl (s.take (o - 1)) with
  | none => rw [hm] at h; simp at h
  | some i =>
    rw [hm] at h
    obtain rfl : p = i + 1 := by simpa using h.symm
    obtain ⟨h1, h2⟩ := memrchrNl_some _ i hm
    rw [List.length_take] at h1
    have hio : i < o - 1 := by omega
    have his : i < s.length := by omega
    refine ⟨by omega, by omega, by omega, ?_⟩
    rw [List.get?_take hio] at h2
    simpa using h2

theorem nl_boundary_of_lf (s : List Nat) (p : Nat) (hp : 1 ≤ p)
    (hg : s.get? (p - 1) = some 10) : NewlineMetric.is_boundary s p = true := by
  unfold NewlineMetric.is_boundary
  rw [if_neg (by omega), hg]
  rfl

/-! ### Literal-search lemmas -/

theorem firstMatch_spec (lit : List Nat) :
    ∀ hay j, StrCursor.firstMatch hay lit = some j →
      lit <+: hay.drop j ∧ j ≤ hay.length := by
  intro hay
  induction hay with
  | nil =>
    intro j h
    unfold StrCursor.firstMatch at h
    split at h
    · rename_i he
      obtain rfl : j = 0 := by simpa using h.symm
      simp_all [List.isEmpty_iff]
    · simp at h
  | cons b rest ih =>
    intro j h
    unfold StrCursor.firstMatch at h
    split at h
    · rename_i hp
      obtain rfl : j = 0 := by simpa using h.symm
      exact ⟨hp, by omega⟩
    · cases hm : StrCursor.firstMatch rest lit with
      | none => rw [hm] at h; simp at h
      | some q =>
        rw [hm] at h
        obtain rfl : j = q + 1 := by simpa using h.symm
        obtain ⟨h1, h2⟩ := ih q hm
        exact ⟨h1, by simpa using Nat.succ_le_succ h2⟩

theorem firstMatch_none (lit : List Nat) :
    ∀ hay, StrCursor.firstMatch hay lit = none → ∀ i, ¬ (lit <+: hay.drop i) := by
  intro hay
  induction hay with
  | nil =>
    intro h i hp
    unfold StrCursor.firstMatch at h
    split at h
    · simp at h
    · rename_i he
      rw [List.drop_nil] at hp
      have : lit = [] := List.prefix_nil.mp hp
      simp [this] at he
  | cons b rest ih =>
    intro h i hp
    unfold StrCursor.firstMatch at h
    split at h
    · simp at h
    · rename_i hnp
      cases hm : StrCursor.firstMatch rest lit with
      | some q => rw [hm] at h; simp at h
      | none =>
        cases i with
        | zero => exact hnp (by simpa using hp)
        | succ i2 => exact ih hm i2 (by simpa using hp)

theorem firstMatch_isSome_of_hit (hay lit : List Nat) (i : Nat)
    (h : lit <+: hay.drop i) : (StrCursor.firstMatch hay lit).isSome = true := by
  cases hm : StrCursor.firstMatch hay lit with
  | some j => rfl
  | none => exact absurd h (firstMatch_none lit hay hm i)

theorem containsSub_eq_true_iff (hay needle : List Nat) :
    StrCursor.containsSub hay needle = true ↔ needle <:+: hay := by
  constructor
  · intro h
    unfold StrCursor.containsSub at h
    cases hm : StrCursor.firstMatch hay needle with
    | none => rw [hm] at h; simp at h
    | some j =>
      obtain ⟨hp, -⟩ := firstMatch_spec needle hay j hm
      exact List.infix_iff_prefix_suffix.mpr ⟨hay.drop j, hp, List.drop_suffix j hay⟩
  · rintro ⟨s2, t2, heq⟩
    unfold StrCursor.containsSub
    apply firstMatch_isSome_of_hit hay needle s2.length
    have hd : hay.drop s2.length = needle ++ t2 := by
      rw [← heq, List.append_assoc, List.drop_left]
    rw [hd]
    exact ⟨t2, rfl⟩

theorem matchIdxAux_mem (lit : List Nat) (fuel : Nat) :
    ∀ hay base m, m ∈ StrCursor.matchIdxAux fuel hay lit base →
      base ≤ m ∧ m + lit.length ≤ base + hay.length := by
  induction fuel with
  | zero => intro hay base m h; simp [StrCursor.matchIdxAux] at h
  | succ fuel ih =>
    intro hay base m h
    unfold StrCursor.matchIdxAux at h
    cases hm : StrCursor.firstMatch hay lit with
    | none => rw [hm] at h; simp at h
    | some j =>
      rw [hm] at h
      obtain ⟨hp, hj⟩ := firstMatch_spec lit hay j hm
      have hjl : j + lit.length ≤ hay.length := by
        have := hp.length_le
        rw [List.length_drop] at this
        omega
      rcases List.mem_cons.mp h with rfl | h2
      · omega
      · obtain ⟨h3, h4⟩ := ih (hay.drop (j + lit.length)) (base + j + lit.length) m h2
        rw [List.length_drop] at h4
        constructor <;> omega

theorem matchIdxAux_sorted (lit : List Nat) (hlit : lit ≠ []) (fuel : Nat) :
    ∀ hay base, List.Pairwise (· < ·) (StrCursor.matchIdxAux fuel hay lit base) := by
  induction fuel with
  | zero => intro hay base; simp [StrCursor.matchIdxAux]
  | succ fuel ih =>
    intro hay base
    unfold StrCursor.matchIdxAux
    cases hm : StrCursor.firstMatch hay lit with
    | none => simp
    | some j =>
      refine List.pairwise_cons.mpr ⟨?_, ih _ _⟩
      intro m hmem
      obtain ⟨h1, -⟩ := matchIdxAux_mem lit fuel _ _ m hmem
      have hl : 1 ≤ lit.length := by
        cases lit with
        | nil => simp at hlit
        | cons a l => simp
      omega

theorem matchIndices_sorted (hay lit : List Nat) :
    List.Pairwise (· < ·) (StrCursor.matchIndices hay lit) := by
  unfold StrCursor.matchIndices
  split
  · exact List.Pairwise.filter _ (List.pairwise_lt_range _)
  · rename_i he
    exact matchIdxAux_sorted lit (by simpa [List.isEmpty_iff] using he) _ hay 0

theorem matchIndices_mem (hay lit : List Nat) (m : Nat)
    (hm : m ∈ StrCursor.matchIndices hay lit) : m + lit.length ≤ hay.length := by
  unfold StrCursor.matchIndices at hm
  split at hm
  · rename_i he
    have h1 : m ∈ List.range (hay.length + 1) := List.mem_of_mem_filter hm
    have : lit.length = 0 := by simpa [List.isEmpty_iff] using he
    rw [this]
    have := List.mem_range.mp h1
    omega
  · have := matchIdxAux_mem lit _ hay 0 m hm
    omega

/-! ### `search_forward` loop lemmas -/

theorem searchForwardGo_none_of_lt (pos L bound count : Nat) :
    ∀ l i, count < i → StrCursor.searchForwardGo pos L bound count l i = none := by
  intro l
  induction l with
  | nil => intro i h; rfl
  | cons m0 rest ih =>
    intro i h
    unfold StrCursor.searchForwardGo
    split
    · rfl
    · split
      · rename_i hcnt
        exact absurd hcnt (by omega)
      · exact ih (i + 1) (by omega)

theorem searchForwardGo_eq (pos L bound count : Nat) :
    ∀ l i, List.Pairwise (· < ·) l → i ≤ count →
    ∀ r, (StrCursor.searchForwardGo pos L bound count l i = some r ↔
      ∃ m, l.get? (count - i) = some m ∧ pos + m + L ≤ bound ∧ r = pos + m + L) := by
  intro l
  induction l with
  | nil =>
    intro i hs hi r
    simp [StrCursor.searchForwardGo]
  | cons m0 rest ih =>
    intro i hs hi r
    obtain ⟨hhead, htail⟩ := List.pairwise_cons.mp hs
    unfold StrCursor.searchForwardGo
    by_cases hbnd : pos + m0 + L > bound
    · rw [if_pos hbnd]
      simp only [false_iff, (by simp : (none : Option Nat) = some r ↔ False)]
      rintro ⟨m, hget, hle, rfl⟩
      cases hci : count - i with
      | zero =>
        rw [hci] at hget
        have hm0 : m0 = m := by simpa using hget
        omega
      | succ k =>
        rw [hci] at hget
        have hmem : m ∈ rest := List.get?_mem (by simpa using hget)
        have := hhead m hmem
        omega
    · rw [if_neg hbnd]
      by_cases hcnt : count = i
      · rw [if_pos hcnt]
        have hci : count - i = 0 := by omega
        rw [hci]
        constructor
        · intro h
          exact ⟨m0, by simp, by omega, by simpa using h.symm⟩
        · rintro ⟨m, hget, hle, rfl⟩
          have hm0 : m0 = m := by simpa using hget
          simp [hm0]
      · rw [if_neg hcnt]
        have hi1 : i + 1 ≤ count := by omega
        rw [ih (i + 1) htail hi1 r]
        have hci : count - i = (count - (i + 1)) + 1 := by omega
        rw [hci]
        simp

theorem searchForwardGo_some_mem (pos L bound count : Nat) :
    ∀ l i r, StrCursor.searchForwardGo pos L bound count l i = some r →
      ∃ m ∈ l, r = pos + m + L ∧ r ≤ bound := by
  intro l
  induction l with
  | nil => intro i r h; simp [StrCursor.searchForwardGo] at h
  | cons m0 rest ih =>
    intro i r h
    unfold StrCursor.searchForwardGo at h
    split at h
    · simp at h
    · rename_i hbnd
      split at h
      · have hr : r = pos + m0 + L := by simpa using h.symm
        exact ⟨m0, by simp, hr, by omega⟩
      · obtain ⟨m, hmem, hr, hb⟩ := ih (i + 1) r h
        exact ⟨m, by simp [hmem], hr, hb⟩

/-! ### `search_forward` structure lemmas -/

theorem search_forward_cases (c : StrCursor) (lit : List Nat) (bound count : Option Nat) :
    (∃ r, StrCursor.search_forward c lit bound count = (some r, c.set r)) ∨
      StrCursor.search_forward c lit bound count = (none, c) := by
  unfold StrCursor.search_forward
  dsimp only
  split
  · right; rfl
  · split
    · left; exact ⟨_, rfl⟩
    · right; rfl

theorem search_forward_none_frame (c : StrCursor) (lit : List Nat)
    (bound count : Option Nat)
    (h : (StrCursor.search_forward c lit bound count).1 = none) :
    (StrCursor.search_forward c lit bound count).2 = c := by
  rcases search_forward_cases c lit bound count with ⟨r, hr⟩ | hn
  · rw [hr] at h; simp at h
  · rw [hn]

theorem search_forward_pos_le (c : StrCursor) (lit : List Nat)
    (bound count : Option Nat) (hc : c.pos ≤ c.data.length) :
    (StrCursor.search_forward c lit bound count).2.pos ≤ c.data.length := by
  unfold StrCursor.search_forward
  dsimp only
  split
  · exact hc
  · cases hgo : StrCursor.searchForwardGo c.pos lit.length (bound.getD c.data.length)
        (count.getD 1) (StrCursor.matchIndices (c.data.drop c.pos) lit) 1 with
    | none => exact hc
    | some r =>
      obtain ⟨m, hmem, hr, -⟩ := searchForwardGo_some_mem _ _ _ _ _ 1 r hgo
      have hmle := matchIndices_mem _ lit m hmem
      rw [List.length_drop] at hmle
      show (c.set r).pos ≤ c.data.length
      simp only [StrCursor.set]
      omega

theorem search_forward_success_iff (s : List Nat) (pos : Nat) (lit : List Nat)
    (bound : Option Nat) (k : Nat) (hk : 1 ≤ k) (r : Nat) :
    StrCursor.search_forward ⟨s, pos⟩ lit bound (some k) = (some r, ⟨s, r⟩) ↔
      kthOccEnd s pos lit k = some r ∧ r ≤ bound.getD s.length := by
  have hkth_shape : ∀ rr, kthOccEnd s pos lit k = some rr →
      ∃ m, (StrCursor.matchIndices (s.drop pos) lit).get? (k - 1) = some m ∧
        rr = pos + m + lit.length := by
    intro rr hkth
    unfold kthOccEnd at hkth
    cases hg : (StrCursor.matchIndices (s.drop pos) lit).get? (k - 1) with
    | none => rw [hg] at hkth; simp at hkth
    | some m =>
      rw [hg] at hkth
      exact ⟨m, rfl, by simpa using hkth.symm⟩
  unfold StrCursor.search_forward
  dsimp only
  simp only [Option.getD_some]
  split
  · rename_i hblt
    constructor
    · intro h
      simp at h
    · rintro ⟨hkth, hrb⟩
      obtain ⟨m, hget, hrm⟩ := hkth_shape r hkth
      omega
  · rename_i hbge
    cases hgo : StrCursor.searchForwardGo pos lit.length (bound.getD s.length) k
        (StrCursor.matchIndices (s.drop pos) lit) 1 with
    | none =>
      constructor
      · intro h
        simp at h
      · rintro ⟨hkth, hrb⟩
        obtain ⟨m, hget, hrm⟩ := hkth_shape r hkth
        have hgoeq := searchForwardGo_eq pos lit.length (bound.getD s.length) k
          (StrCursor.matchIndices (s.drop pos) lit) 1 (matchIndices_sorted _ _) hk r
        have := hgoeq.mpr ⟨m, hget, by omega, hrm⟩
        rw [hgo] at this
        simp at this
    | some r2 =>
      have hgoeq2 := searchForwardGo_eq pos lit.length (bound.getD s.length) k
        (StrCursor.matchIndices (s.drop pos) lit) 1 (matchIndices_sorted _ _) hk r2
      rw [hgo] at hgoeq2
      obtain ⟨m2, hget2, hmb2, hr22⟩ := hgoeq2.mp rfl
      constructor
      · intro h
        have hr2r : r2 = r := by simpa using congrArg Prod.fst h
        subst hr2r
        refine ⟨?_, by omega⟩
        unfold kthOccEnd
        rw [hget2]
        simp [hr22]
      · rintro ⟨hkth, hrb⟩
        obtain ⟨m, hget, hrm⟩ := hkth_shape r hkth
        rw [hget] at hget2
        have hm2m : m = m2 := by simpa using hget2
        have hr2r : r2 = r := by omega
        subst hr2r
        simp [StrCursor.set]



/-! ### Cursor state helper lemmas -/

theorem set_set (c : StrCursor) (a b : Nat) : (c.set a).set b = c.set b := rfl

theorem set_self (c : StrCursor) : c.set c.pos = c := rfl

theorem at_or_prev_some (s : List Nat) (o l : Nat)
    (h : NewlineMetric.at_or_prev s o = some l) :
    (NewlineMetric.is_boundary s o = true ∧ l = o) ∨ NewlineMetric.prev s o = some l := by
  unfold NewlineMetric.at_or_prev at h
  split at h
  · rename_i hb
    exact Or.inl ⟨hb, by simpa using h.symm⟩
  · exact Or.inr h

theorem nl_at_or_prev_boundary (s : List Nat) (o l : Nat)
    (h : NewlineMetric.at_or_prev s o = some l) :
    NewlineMetric.is_boundary s l = true ∧ (l = o ∨ l ≤ s.length) := by
  rcases at_or_prev_some s o l h with ⟨hb, rfl⟩ | hp
  · exact ⟨hb, Or.inl rfl⟩
  · obtain ⟨h1, -, h3, h4⟩ := nlPrev_bounds s o l hp
    exact ⟨nl_boundary_of_lf s l h1 h4, Or.inr h3⟩

theorem goto_line_begin_spec (c : StrCursor) :
    ∃ p, StrCursor.goto_line_begin c = (p, c.set p) ∧
      (p = 0 ∨ NewlineMetric.is_boundary c.data p = true) ∧
      (p = c.pos ∨ p ≤ c.data.length) := by
  unfold StrCursor.goto_line_begin
  split
  · rename_i h0
    exact ⟨0, by rw [← h0, set_self], Or.inl rfl, Or.inl h0.symm⟩
  · unfold StrCursor.atOrPrevNl
    cases hap : NewlineMetric.at_or_prev c.data c.pos with
    | some l =>
      obtain ⟨hb, hle⟩ := nl_at_or_prev_boundary c.data c.pos l hap
      exact ⟨l, by simp [StrCursor.set], Or.inr hb, hle⟩
    | none =>
      exact ⟨0, by simp [set_set], Or.inl rfl, Or.inr (by omega)⟩

theorem goto_line_begin_stable (c : StrCursor)
    (h : c.pos = 0 ∨ NewlineMetric.is_boundary c.data c.pos = true) :
    StrCursor.goto_line_begin c = (c.pos, c) := by
  unfold StrCursor.goto_line_begin
  rcases h with h0 | hb
  · rw [if_pos h0, h0]
  · split
    · rename_i h0
      rw [h0]
    · unfold StrCursor.atOrPrevNl NewlineMetric.at_or_prev
      rw [if_pos hb]
      simp [set_self]

theorem goto_next_line_spec (c : StrCursor) :
    ∃ p, StrCursor.goto_next_line c = (p, c.set p) ∧ p ≤ c.data.length := by
  unfold StrCursor.goto_next_line StrCursor.nextNl
  cases hn : NewlineMetric.next c.data c.pos with
  | none =>
    exact ⟨c.data.length, by simp [StrCursor.set], Nat.le_refl _⟩
  | some t =>
    obtain ⟨-, h2, -, -⟩ := nlNext_bounds c.data c.pos t hn
    exact ⟨t, by simp [StrCursor.set], h2⟩

theorem goto_prev_line_spec (c : StrCursor) :
    ∃ p, StrCursor.goto_prev_line c = (p, c.set p) ∧ p ≤ c.data.length := by
  unfold StrCursor.goto_prev_line
  obtain ⟨q, hq, -, -⟩ := goto_line_begin_spec c
  rw [hq]
  dsimp only
  split
  · rename_i h0
    have hq0 : q = 0 := h0
    refine ⟨0, ?_, by omega⟩
    rw [hq0]
  · unfold StrCursor.prevNl
    cases hp : NewlineMetric.prev (c.set q).data (c.set q).pos with
    | none =>
      exact ⟨0, by simp [set_set], by omega⟩
    | some x =>
      obtain ⟨-, -, h3, -⟩ := nlPrev_bounds _ _ x hp
      exact ⟨x, by simp [set_set, StrCursor.set], by simpa using h3⟩

theorem iterNextLine_spec (k : Nat) :
    ∀ c : StrCursor, ∃ p, StrCursor.iterNextLine k c = c.set p ∧
      (p = c.pos ∨ p ≤ c.data.length) := by
  induction k with
  | zero =>
    intro c
    exact ⟨c.pos, by rw [StrCursor.iterNextLine, set_self], Or.inl rfl⟩
  | succ k ih =>
    intro c
    obtain ⟨q, hq, hqle⟩ := goto_next_line_spec c
    obtain ⟨p, hp, hple⟩ := ih (c.set q)
    refine ⟨p, ?_, ?_⟩
    · rw [StrCursor.iterNextLine, hq]
      dsimp only
      rw [hp, set_set]
    · rcases hple with h | h
      · simp only [StrCursor.set] at h
        exact Or.inr (h ▸ hqle)
      · simpa [StrCursor.set] using Or.inr h

theorem lbpPrevLoop_spec (k : Nat) :
    ∀ c : StrCursor, ∃ p, StrCursor.lbpPrevLoop k c = c.set p ∧
      (p = c.pos ∨ p ≤ c.data.length) := by
  induction k with
  | zero =>
    intro c
    exact ⟨c.pos, by rw [StrCursor.lbpPrevLoop, set_self], Or.inl rfl⟩
  | succ k ih =>
    intro c
    unfold StrCursor.lbpPrevLoop StrCursor.prevNl
    cases hp : NewlineMetric.prev c.data c.pos with
    | none =>
      exact ⟨0, rfl, Or.inr (by omega)⟩
    | some x =>
      obtain ⟨-, -, h3, -⟩ := nlPrev_bounds _ _ x hp
      obtain ⟨p, hloop, hple⟩ := ih (c.set x)
      refine ⟨p, by dsimp only; rw [hloop, set_set], ?_⟩
      rcases hple with h | h
      · simp only [StrCursor.set] at h
        exact Or.inr (h ▸ h3)
      · simpa [StrCursor.set] using Or.inr h

theorem lepPrevLoop_spec (k : Nat) :
    ∀ c : StrCursor, ∃ p, StrCursor.lepPrevLoop k c = c.set p ∧
      (p = c.pos ∨ p ≤ c.data.length) := by
  induction k with
  | zero =>
    intro c
    exact ⟨c.pos, by rw [StrCursor.lepPrevLoop, set_self], Or.inl rfl⟩
  | succ k ih =>
    intro c
    unfold StrCursor.lepPrevLoop StrCursor.prevNl
    cases hp : NewlineMetric.prev c.data c.pos with
    | none =>
      exact ⟨c.pos, (set_self c).symm, Or.inl rfl⟩
    | some x =>
      obtain ⟨-, -, h3, -⟩ := nlPrev_bounds _ _ x hp
      obtain ⟨p, hloop, hple⟩ := ih (c.set x)
      refine ⟨p, by dsimp only; rw [hloop, set_set], ?_⟩
      rcases hple with h | h
      · simp only [StrCursor.set] at h
        exact Or.inr (h ▸ h3)
      · simpa [StrCursor.set] using Or.inr h

theorem lbpScan_spec (c : StrCursor) (n : Option Int) :
    ∃ p, StrCursor.lbpScan c n = c.set p ∧ (p = c.pos ∨ p ≤ c.data.length) := by
  obtain ⟨q, hq, -, hqle⟩ := goto_line_begin_spec c
  unfold StrCursor.lbpScan
  split
  · exact ⟨q, by rw [hq], hqle⟩
  · exact ⟨q, by rw [hq], hqle⟩
  · split
    · exact iterNextLine_spec _ c
    · rw [hq]
      dsimp only
      split
      · obtain ⟨p, hloop, hple⟩ := lbpPrevLoop_spec _ (c.set q)
        refine ⟨p, by rw [hloop, set_set], ?_⟩
        rcases hple with h | h
        · simp only [StrCursor.set] at h
          subst h
          exact hqle
        · simpa [StrCursor.set] using Or.inr h
      · exact ⟨q, rfl, hqle⟩

theorem lepScan_spec (c : StrCursor) (n : Option Int) :
    ∃ p, StrCursor.lepScan c n = c.set p ∧ (p = c.pos ∨ p ≤ c.data.length) := by
  obtain ⟨q, hq, hqle⟩ := goto_next_line_spec c
  unfold StrCursor.lepScan
  split
  · exact ⟨q, by rw [hq], Or.inr hqle⟩
  · exact ⟨q, by rw [hq], Or.inr hqle⟩
  · split
    · exact iterNextLine_spec _ c
    · split
      · obtain ⟨p, hloop, hple⟩ := lepPrevLoop_spec _ c
        exact ⟨p, hloop, hple⟩
      · exact ⟨c.pos, (set_self c).symm, Or.inl rfl⟩

theorem line_beginning_position_frame (c : StrCursor) (n : Option Int) :
    (StrCursor.line_beginning_position c n).2 = c := by
  obtain ⟨p, hscan, -⟩ := lbpScan_spec c n
  unfold StrCursor.line_beginning_position
  rw [hscan]
  dsimp only
  rw [set_set, set_self]

theorem line_end_position_frame (c : StrCursor) (n : Option Int) :
    (StrCursor.line_end_position c n).2 = c := by
  obtain ⟨p, hscan, -⟩ := lepScan_spec c n
  unfold StrCursor.line_end_position
  rw [hscan]
  dsimp only
  rw [set_set, set_self]

/-! ### `re_search_forward` and `looking_at` lemmas -/

theorem re_search_forward_cases (c : StrCursor) (lit : List Nat) (bound : Option Nat) :
    StrCursor.re_search_forward c lit bound = (none, c) ∨
      ∃ j, StrCursor.firstMatch
          ((c.data.drop c.pos).take (bound.getD c.data.length - c.pos)) lit = some j ∧
        StrCursor.re_search_forward c lit bound =
          (some (c.pos + j, c.pos + j + lit.length), c.set (c.pos + j + lit.length)) := by
  unfold StrCursor.re_search_forward
  dsimp only
  split
  · exact Or.inl rfl
  · cases hm : StrCursor.firstMatch
        ((c.data.drop c.pos).take (bound.getD c.data.length - c.pos)) lit with
    | none => exact Or.inl rfl
    | some j => exact Or.inr ⟨j, rfl, rfl⟩

theorem re_search_forward_none_frame (c : StrCursor) (lit : List Nat) (bound : Option Nat)
    (h : (StrCursor.re_search_forward c lit bound).1 = none) :
    (StrCursor.re_search_forward c lit bound).2 = c := by
  rcases re_search_forward_cases c lit bound with hn | ⟨j, -, hs⟩
  · rw [hn]
  · rw [hs] at h
    simp at h

theorem re_search_forward_pos_le (c : StrCursor) (lit : List Nat) (bound : Option Nat)
    (hc : c.pos ≤ c.data.length) :
    (StrCursor.re_search_forward c lit bound).2.pos ≤ c.data.length := by
  rcases re_search_forward_cases c lit bound with hn | ⟨j, hm, hs⟩
  · rw [hn]
    exact hc
  · rw [hs]
    obtain ⟨hp, hj⟩ := firstMatch_spec lit _ j hm
    have h1 := hp.length_le
    rw [List.length_drop] at h1
    have h2 : ((c.data.drop c.pos).take (bound.getD c.data.length - c.pos)).length ≤
        (c.data.drop c.pos).length := by
      rw [List.length_take, List.length_drop]
      omega
    rw [List.length_take, List.length_drop] at h1 hj
    simp only [StrCursor.set]
    omega

theorem looking_at_window (c : StrCursor) (lit : List Nat) :
    StrCursor.looking_at c lit =
      (StrCursor.firstMatch
        (if StrCursor.is_multiline_regex lit then c.data.drop c.pos
         else (c.data.drop c.pos).takeWhile (fun b => !(b == 10))) lit).map
        (fun j => (j, j + lit.length)) := by
  unfold StrCursor.looking_at
  by_cases hml : StrCursor.is_multiline_regex lit = true
  · rw [if_pos hml]
    simp only [hml, Bool.not_true, Bool.false_eq_true, if_false]
    congr 1
    have : (c.data.drop c.pos).length = c.data.length - c.pos := List.length_drop _ _
    rw [← this, List.take_length]
  · rw [if_neg hml]
    simp only [(by simpa using hml : StrCursor.is_multiline_regex lit = false),
      Bool.not_false, if_true]
    congr 1
    unfold NewlineMetric.next
    cases hm : memchrNl (c.data.drop c.pos) with
    | some i =>
      simp only [Option.map_some', Option.getD_some]
      have he : c.pos + i + 1 - 1 - c.pos = i := by omega
      rw [he, memchrNl_some_take _ i hm]
    | none =>
      simp only [Option.map_none', Option.getD_none]
      rw [memchrNl_none_takeWhile _ hm]
      have hld : (c.data.drop c.pos).length = c.data.length - c.pos := List.length_drop _ _
      rw [← hld, List.take_length]

/-! ### `line_end_position` value lemmas -/

theorem isCont_lf : isCont 10 = false := rfl

theorem line_end_position_next (s : List Nat) (pos t : Nat)
    (h : NewlineMetric.next s pos = some t) :
    (StrCursor.line_end_position ⟨s, pos⟩ none).1 = t - 1 := by
  unfold StrCursor.line_end_position StrCursor.lepScan StrCursor.goto_next_line
    StrCursor.nextNl
  dsimp only
  rw [h]
  dsimp only
  obtain ⟨h1, h2, h3, h4⟩ := nlNext_bounds s pos t h
  obtain ⟨t2, rfl⟩ : ∃ t2, t = t2 + 1 := ⟨t - 1, by omega⟩
  show (some (prevB s t2)).getD 0 = t2 + 1 - 1
  have hbd : is_char_boundary s t2 = true := by
    cases ht2 : t2 with
    | zero => exact is_char_boundary_zero s
    | succ t3 =>
      rw [← ht2]
      have : s.get? t2 = some 10 := by simpa using h4
      rw [is_char_boundary_of_get s t2 10 (by omega) this, isCont_lf]
      rfl
  rw [prevB_eq_of_boundary s t2 hbd]
  rfl

theorem line_end_position_at_end (s : List Nat) (pos : Nat)
    (h : NewlineMetric.next s pos = none) :
    (StrCursor.line_end_position ⟨s, pos⟩ none).1 =
      (CharMetric.prev s s.length).getD 0 := by
  unfold StrCursor.line_end_position StrCursor.lepScan StrCursor.goto_next_line
    StrCursor.nextNl
  dsimp only
  rw [h]
  rfl

/-! ### Character-step and skip-loop lemmas -/

theorem get_next_char_cases (c : StrCursor) :
    (StrCursor.get_next_char c = (none, c) ∧ c.data.length ≤ c.pos) ∨
      ∃ b, c.data.get? c.pos = some b ∧
        StrCursor.get_next_char c =
          (some ((c.data.drop c.pos).take (len_utf8_from_first_byte b)),
            c.set (c.pos + len_utf8_from_first_byte b)) := by
  unfold StrCursor.get_next_char
  cases hg : c.data.get? c.pos with
  | none => exact Or.inl ⟨rfl, List.get?_eq_none.mp hg⟩
  | some b => exact Or.inr ⟨b, rfl, rfl⟩

theorem get_prev_char_cases (c : StrCursor) :
    (StrCursor.get_prev_char c = (none, c) ∧ c.pos = 0) ∨
      ∃ a, a = prevB c.data (c.pos - 1) ∧
        StrCursor.get_prev_char c =
          (some ((c.data.drop a).take (c.pos - a)), c.set a) := by
  unfold StrCursor.get_prev_char
  cases hp : CharMetric.prev c.data c.pos with
  | none =>
    refine Or.inl ⟨rfl, ?_⟩
    unfold CharMetric.prev at hp
    cases hpos : c.pos with
    | zero => rfl
    | succ p2 => rw [hpos] at hp; simp at hp
  | some a =>
    refine Or.inr ⟨a, ?_, rfl⟩
    unfold CharMetric.prev at hp
    cases hpos : c.pos with
    | zero => rw [hpos] at hp; simp at hp
    | succ p2 =>
      rw [hpos] at hp
      have h2 : prevB c.data p2 = a := by simpa using hp
      simpa using h2.symm

theorem get_next_char_pos_le (c : StrCursor) (hv : utf8Valid c.data = true)
    (hb : is_char_boundary c.data c.pos = true) :
    (StrCursor.get_next_char c).2.pos ≤ c.data.length ∧
      is_char_boundary c.data (StrCursor.get_next_char c).2.pos = true ∧
      (StrCursor.get_next_char c).2.data = c.data := by
  rcases get_next_char_cases c with ⟨hn, -⟩ | ⟨b, hgb, hs⟩
  · rw [hn]
    exact ⟨is_char_boundary_le _ _ hb, hb, rfl⟩
  · rw [hs]
    have hlt : c.pos < c.data.length := by
      obtain ⟨h1, -⟩ := List.get?_eq_some.mp hgb
      exact h1
    obtain ⟨b2, hgb2, hle, hbn, -⟩ :=
      utf8_step c.data.length c.data (Nat.le_refl _) hv c.pos hb hlt
    rw [hgb] at hgb2
    obtain rfl : b = b2 := by simpa using hgb2
    exact ⟨hle, hbn, rfl⟩

theorem get_prev_char_le (c : StrCursor) :
    (StrCursor.get_prev_char c).2.pos ≤ c.pos ∧
      (StrCursor.get_prev_char c).2.data = c.data := by
  rcases get_prev_char_cases c with ⟨hn, -⟩ | ⟨a, ha, hs⟩
  · rw [hn]
    exact ⟨Nat.le_refl _, rfl⟩
  · rw [hs]
    have := prevB_le c.data (c.pos - 1)
    refine ⟨?_, rfl⟩
    show a ≤ c.pos
    omega

theorem skipFwdGo_inv (cs : List (List Nat)) (pos limit : Nat) (fuel : Nat) :
    ∀ (c : StrCursor) (count : Nat), utf8Valid c.data = true →
      is_char_boundary c.data c.pos = true →
      (StrCursor.skipFwdGo cs pos limit fuel c count).2.pos ≤ c.data.length ∧
      (StrCursor.skipFwdGo cs pos limit fuel c count).2.data = c.data := by
  induction fuel with
  | zero =>
    intro c count hv hb
    exact ⟨is_char_boundary_le _ _ hb, rfl⟩
  | succ fuel ih =>
    intro c count hv hb
    unfold StrCursor.skipFwdGo
    rcases get_next_char_cases c with ⟨hn, -⟩ | ⟨b, hgb, hs⟩
    · rw [hn]
      exact ⟨is_char_boundary_le _ _ hb, rfl⟩
    · rw [hs]
      dsimp only
      have hlt : c.pos < c.data.length := by
        obtain ⟨h1, -⟩ := List.get?_eq_some.mp hgb
        exact h1
      obtain ⟨b2, hgb2, hle, hbn, -⟩ :=
        utf8_step c.data.length c.data (Nat.le_refl _) hv c.pos hb hlt
      rw [hgb] at hgb2
      obtain rfl : b = b2 := by simpa using hgb2
      have hdata : (c.set (c.pos + len_utf8_from_first_byte b)).data = c.data := rfl
      split
      · split
        · obtain ⟨hp1, hp2⟩ := get_prev_char_le (c.set (c.pos + len_utf8_from_first_byte b))
          refine ⟨?_, by simpa [hdata] using hp2⟩
          simp only [StrCursor.set] at hp1 ⊢
          omega
        · have := ih (c.set (c.pos + len_utf8_from_first_byte b)) (count + 1)
            (by simpa [hdata] using hv) (by simpa [hdata] using hbn)
          simpa [hdata] using this
      · obtain ⟨hp1, hp2⟩ := get_prev_char_le (c.set (c.pos + len_utf8_from_first_byte b))
        refine ⟨?_, by simpa [hdata] using hp2⟩
        simp only [StrCursor.set] at hp1 ⊢
        omega

theorem skipBwdGo_inv (cs : List (List Nat)) (limit : Nat) (fuel : Nat) :
    ∀ (c : StrCursor) (count : Nat), utf8Valid c.data = true →
      c.pos ≤ c.data.length →
      (StrCursor.skipBwdGo cs limit fuel c count).2.pos ≤ c.data.length ∧
      (StrCursor.skipBwdGo cs limit fuel c count).2.data = c.data := by
  induction fuel with
  | zero =>
    intro c count hv hc
    exact ⟨hc, rfl⟩
  | succ fuel ih =>
    intro c count hv hc
    unfold StrCursor.skipBwdGo
    rcases get_prev_char_cases c with ⟨hn, -⟩ | ⟨a, ha, hs⟩
    · rw [hn]
      exact ⟨hc, rfl⟩
    · rw [hs]
      dsimp only
      have hple := prevB_le c.data (c.pos - 1)
      have hpb := prevB_boundary c.data (c.pos - 1)
      have hdata : (c.set a).data = c.data := rfl
      have hba : is_char_boundary (c.set a).data (c.set a).pos = true := by
        simpa [StrCursor.set, ha] using hpb
      split
      · split
        · obtain ⟨hq1, hq2, hq3⟩ := get_next_char_pos_le (c.set a)
            (by simpa [hdata] using hv) hba
          exact ⟨by simpa [hdata] using hq1, by simpa [hdata] using hq3⟩
        · have := ih (c.set a) (count + 1) (by simpa [hdata] using hv)
            (by simp only [StrCursor.set]; omega)
          simpa [hdata] using this
      · obtain ⟨hq1, hq2, hq3⟩ := get_next_char_pos_le (c.set a)
          (by simpa [hdata] using hv) hba
        exact ⟨by simpa [hdata] using hq1, by simpa [hdata] using hq3⟩

theorem skip_chars_forward_pos_le (c : StrCursor) (cs : List (List Nat))
    (limit : Option Nat) (hv : utf8Valid c.data = true)
    (hb : is_char_boundary c.data c.pos = true) :
    (StrCursor.skip_chars_forward c cs limit).2.pos ≤ c.data.length := by
  unfold StrCursor.skip_chars_forward
  dsimp only
  split
  · exact is_char_boundary_le _ _ hb
  · exact (skipFwdGo_inv cs c.pos (limit.getD c.data.length) (c.data.length + 1)
      c 0 hv hb).1

theorem skip_chars_backward_pos_le (c : StrCursor) (cs : List (List Nat))
    (limit : Option Nat) (hv : utf8Valid c.data = true)
    (hc : c.pos ≤ c.data.length) :
    (StrCursor.skip_chars_backward c cs limit).2.pos ≤ c.data.length := by
  unfold StrCursor.skip_chars_backward
  dsimp only
  split
  · exact hc
  · exact (skipBwdGo_inv cs (limit.getD 0) (c.pos + 1) c 0 hv hc).1

/-! ### Metric-move frame and bound lemmas -/

theorem nextChar_none_frame (c : StrCursor) (h : (c.nextChar).1 = none) :
    (c.nextChar).2 = c := by
  unfold StrCursor.nextChar at h ⊢
  cases hn : CharMetric.next c.data c.pos with
  | none => rfl
  | some l => rw [hn] at h; simp at h

theorem prevChar_none_frame (c : StrCursor) (h : (c.prevChar).1 = none) :
    (c.prevChar).2 = c := by
  unfold StrCursor.prevChar at h ⊢
  cases hn : CharMetric.prev c.data c.pos with
  | none => rfl
  | some l => rw [hn] at h; simp at h

theorem nextNl_none_frame (c : StrCursor) (h : (c.nextNl).1 = none) :
    (c.nextNl).2 = c := by
  unfold StrCursor.nextNl at h ⊢
  cases hn : NewlineMetric.next c.data c.pos with
  | none => rfl
  | some l => rw [hn] at h; simp at h

theorem prevNl_none_frame (c : StrCursor) (h : (c.prevNl).1 = none) :
    (c.prevNl).2 = c := by
  unfold StrCursor.prevNl at h ⊢
  cases hn : NewlineMetric.prev c.data c.pos with
  | none => rfl
  | some l => rw [hn] at h; simp at h

theorem nextChar_pos_le (c : StrCursor) (hv : utf8Valid c.data = true)
    (hb : is_char_boundary c.data c.pos = true) :
    (c.nextChar).2.pos ≤ c.data.length := by
  unfold StrCursor.nextChar
  cases hn : CharMetric.next c.data c.pos with
  | none => exact is_char_boundary_le _ _ hb
  | some l =>
    have hlt : c.pos < c.data.length := by
      unfold CharMetric.next at hn
      split at hn
      · simp at hn
      · rename_i hne
        cases hg : c.data.get? c.pos with
        | none => rw [hg] at hn; simp at hn
        | some b =>
          obtain ⟨h1, -⟩ := List.get?_eq_some.mp hg
          exact h1
    obtain ⟨m, hm, -, hmle, -, -⟩ := next_boundary c.data c.pos hv hb hlt
    rw [hn] at hm
    obtain rfl : l = m := by simpa using hm
    simpa [StrCursor.set] using hmle

theorem prevChar_pos_le (c : StrCursor) (hc : c.pos ≤ c.data.length) :
    (c.prevChar).2.pos ≤ c.data.length := by
  unfold StrCursor.prevChar
  cases hp : CharMetric.prev c.data c.pos with
  | none => exact hc
  | some a =>
    unfold CharMetric.prev at hp
    cases hpos : c.pos with
    | zero => rw [hpos] at hp; simp at hp
    | succ p2 =>
      rw [hpos] at hp
      obtain rfl : a = prevB c.data p2 := by simpa using hp.symm
      have := prevB_le c.data p2
      simp only [StrCursor.set]
      omega

theorem nextNl_pos_le (c : StrCursor) (hc : c.pos ≤ c.data.length) :
    (c.nextNl).2.pos ≤ c.data.length := by
  unfold StrCursor.nextNl
  cases hn : NewlineMetric.next c.data c.pos with
  | none => exact hc
  | some t =>
    obtain ⟨-, h2, -, -⟩ := nlNext_bounds c.data c.pos t hn
    simpa [StrCursor.set] using h2

theorem prevNl_pos_le (c : StrCursor) (hc : c.pos ≤ c.data.length) :
    (c.prevNl).2.pos ≤ c.data.length := by
  unfold StrCursor.prevNl
  cases hp : NewlineMetric.prev c.data c.pos with
  | none => exact hc
  | some p =>
    obtain ⟨-, -, h3, -⟩ := nlPrev_bounds c.data c.pos p hp
    simpa [StrCursor.set] using h3

theorem atOrPrevNl_pos_le (c : StrCursor) (hc : c.pos ≤ c.data.length) :
    (c.atOrPrevNl).2.pos ≤ c.data.length := by
  unfold StrCursor.atOrPrevNl
  cases hap : NewlineMetric.at_or_prev c.data c.pos with
  | none => exact hc
  | some l =>
    obtain ⟨-, hle⟩ := nl_at_or_prev_boundary c.data c.pos l hap
    rcases hle with rfl | h
    · simpa [StrCursor.set] using hc
    · simpa [StrCursor.set] using h

/-! ### Claim theorems -/

/-- C1 (code bug): `looking_at` is documented (cursor.rs lines 403-407) and
specified as an anchored match, but the implementation runs the engine's
leftmost `find` over the window slice without anchoring.  On the buffer
`"ab"` with the cursor at 0 and the literal pattern `"b"`, it reports the
match `[1, 2)` whose start lies strictly after the current offset, which
the claim (and the function's own doc comment) forbids. -/
theorem c1_looking_at_unanchored :
    StrCursor.looking_at ⟨[97, 98], 0⟩ [98] = some (1, 2) := by decide

/-- C2: `search_forward(lit, bound, Some k)` (with `k ≥ 1`) succeeds with
result `r` and cursor moved to `r` exactly when the `k`-th occurrence of
the literal at or after the current position ends at `r ≤ bound` (default
bound: buffer length); a missing count defaults to 1; and the Example-3
evaluations hold: from 0, count 2 gives 18, then a default search from 18
gives 29. -/
theorem c2_search_forward_spec :
    (∀ (s : List Nat) (pos : Nat) (lit : List Nat) (bound : Option Nat) (k : Nat),
      1 ≤ k → ∀ r, (StrCursor.search_forward ⟨s, pos⟩ lit bound (some k) =
          (some r, ⟨s, r⟩) ↔
        kthOccEnd s pos lit k = some r ∧ r ≤ bound.getD s.length)) ∧
    (∀ (c : StrCursor) (lit : List Nat) (bound : Option Nat),
      StrCursor.search_forward c lit bound none =
        StrCursor.search_forward c lit bound (some 1)) ∧
    StrCursor.search_forward ⟨ex3Buf, 0⟩ oneLit none (some 2) =
      (some 18, ⟨ex3Buf, 18⟩) ∧
    StrCursor.search_forward ⟨ex3Buf, 18⟩ oneLit none none =
      (some 29, ⟨ex3Buf, 29⟩) :=
  ⟨fun s pos lit bound k hk r => search_forward_success_iff s pos lit bound k hk r,
    fun _ _ _ => rfl, by decide, by decide⟩

/-- Witness for C2 at the Example-3 input: the 2nd occurrence of `"one"`
ends at 18 within the default bound. -/
theorem c2_search_forward_spec_witness :
    kthOccEnd ex3Buf 0 oneLit 2 = some 18 ∧
      18 ≤ (none : Option Nat).getD ex3Buf.length :=
  (c2_search_forward_spec.1 ex3Buf 0 oneLit none 2 (by decide) 18).mp (by decide)

/-- C3: the non-mutating queries `line_beginning_position` and
`line_end_position` restore the cursor for every `n`, and every
not-found outcome (metric `next`/`prev` returning none, `search_forward`
none, `re_search_forward` none) leaves the cursor exactly as it was;
`looking_at` takes the cursor immutably and never moves it. -/
theorem c3_not_found_frame :
    (∀ (c : StrCursor) (n : Option Int),
      (StrCursor.line_beginning_position c n).2 = c) ∧
    (∀ (c : StrCursor) (n : Option Int),
      (StrCursor.line_end_position c n).2 = c) ∧
    (∀ c : StrCursor, (c.nextChar).1 = none → (c.nextChar).2 = c) ∧
    (∀ c : StrCursor, (c.prevChar).1 = none → (c.prevChar).2 = c) ∧
    (∀ c : StrCursor, (c.nextNl).1 = none → (c.nextNl).2 = c) ∧
    (∀ c : StrCursor, (c.prevNl).1 = none → (c.prevNl).2 = c) ∧
    (∀ (c : StrCursor) (lit : List Nat) (bound count : Option Nat),
      (StrCursor.search_forward c lit bound count).1 = none →
        (StrCursor.search_forward c lit bound count).2 = c) ∧
    (∀ (c : StrCursor) (lit : List Nat) (bound : Option Nat),
      (StrCursor.re_search_forward c lit bound).1 = none →
        (StrCursor.re_search_forward c lit bound).2 = c) ∧
    (∀ (c : StrCursor) (lit : List Nat), (StrCursor.lookingAtStep c lit).2 = c) :=
  ⟨line_beginning_position_frame, line_end_position_frame,
    nextChar_none_frame, prevChar_none_frame, nextNl_none_frame, prevNl_none_frame,
    search_forward_none_frame, re_search_forward_none_frame, fun _ _ => rfl⟩

/-- Witness for C3: a failing bounded search (no occurrence of `"one"` can
end by offset 1) leaves the cursor untouched. -/
theorem c3_not_found_frame_witness :
    (StrCursor.search_forward ⟨ex3Buf, 0⟩ oneLit (some 1) none).2 = ⟨ex3Buf, 0⟩ :=
  c3_not_found_frame.2.2.2.2.2.2.1 ⟨ex3Buf, 0⟩ oneLit (some 1) none (by decide)

/-- C4 (code bug): `skip_chars_forward` is documented and specified to stop
at `limit` without overrunning it, but its guard compares the character
count plus the starting byte position (`count + pos > limit`) instead of
the cursor position, so the cursor can end past the limit.  On `"aa"`,
charset `"a"`, limit 1 it advances to byte 2 and returns 2; on the repo's
own test input `"  k\t **hello"`, charset `"* k\t"`, limit 2 it advances
to byte 3 and returns 3 (the in-repo test asserts this very value). -/
theorem c4_skip_chars_forward_overrun :
    StrCursor.skip_chars_forward ⟨[97, 97], 0⟩ [[97]] (some 1) =
      (2, ⟨[97, 97], 2⟩) ∧
    StrCursor.skip_chars_forward ⟨asciiBytes "  k\t **hello", 0⟩
        [[42], [32], [107], [9]] (some 2) =
      (3, ⟨asciiBytes "  k\t **hello", 3⟩) := by decide

/-- C5 counterexample: starting from offset 0 on the two-byte buffer
`"ab"`, the raw `inc(5)` leaves the offset at 5 > 2, so it is false that
every cursor operation preserves `0 ≤ offset ≤ len(buffer)`. -/
theorem c5_inc_escapes :
    (⟨[97, 98], 0⟩ : StrCursor).pos ≤ ([97, 98] : List Nat).length ∧
    ¬ (StrCursor.inc ⟨[97, 98], 0⟩ 5).pos ≤
        (StrCursor.inc ⟨[97, 98], 0⟩ 5).data.length := by decide

/-- C5 amended: for a valid-UTF-8 buffer (which Rust `&str` guarantees) and
a cursor offset on a character boundary (hence in `[0, len]`), `dec` and
all navigation, search and skip operations leave the offset in
`[0, len(buffer)]`; only the raw unchecked `set` and `inc` can escape. -/
theorem c5_invariant_amended
    (c : StrCursor) (hv : utf8Valid c.data = true)
    (hb : is_char_boundary c.data c.pos = true)
    (n : Nat) (nI : Option Int) (lit : List Nat) (bound count : Option Nat)
    (cs : List (List Nat)) (lim : Option Nat) :
    (c.dec n).pos ≤ c.data.length ∧
    (c.nextChar).2.pos ≤ c.data.length ∧
    (c.prevChar).2.pos ≤ c.data.length ∧
    (c.nextNl).2.pos ≤ c.data.length ∧
    (c.prevNl).2.pos ≤ c.data.length ∧
    (c.atOrPrevNl).2.pos ≤ c.data.length ∧
    (StrCursor.goto_line_begin c).2.pos ≤ c.data.length ∧
    (StrCursor.goto_next_line c).2.pos ≤ c.data.length ∧
    (StrCursor.goto_prev_line c).2.pos ≤ c.data.length ∧
    (StrCursor.line_beginning_position c nI).2.pos ≤ c.data.length ∧
    (StrCursor.line_end_position c nI).2.pos ≤ c.data.length ∧
    (StrCursor.search_forward c lit bound count).2.pos ≤ c.data.length ∧
    (StrCursor.re_search_forward c lit bound).2.pos ≤ c.data.length ∧
    (StrCursor.skip_chars_forward c cs lim).2.pos ≤ c.data.length ∧
    (StrCursor.skip_chars_backward c cs lim).2.pos ≤ c.data.length ∧
    (StrCursor.get_next_char c).2.pos ≤ c.data.length ∧
    (StrCursor.get_prev_char c).2.pos ≤ c.data.length := by
  have hc : c.pos ≤ c.data.length := is_char_boundary_le _ _ hb
  refine ⟨by simp only [StrCursor.dec]; omega,
    nextChar_pos_le c hv hb, prevChar_pos_le c hc, nextNl_pos_le c hc,
    prevNl_pos_le c hc, atOrPrevNl_pos_le c hc, ?_, ?_, ?_, ?_, ?_,
    search_forward_pos_le c lit bound count hc,
    re_search_forward_pos_le c lit bound hc,
    skip_chars_forward_pos_le c cs lim hv hb,
    skip_chars_backward_pos_le c cs lim hv hc,
    (get_next_char_pos_le c hv hb).1, ?_⟩
  · obtain ⟨p, hp, -, hple⟩ := goto_line_begin_spec c
    rw [hp]
    rcases hple with rfl | h
    · exact hc
    · exact h
  · obtain ⟨p, hp, hple⟩ := goto_next_line_spec c
    rw [hp]
    exact hple
  · obtain ⟨p, hp, hple⟩ := goto_prev_line_spec c
    rw [hp]
    exact hple
  · rw [line_beginning_position_frame c nI]
    exact hc
  · rw [line_end_position_frame c nI]
    exact hc
  · have := (get_prev_char_le c).1
    omega

/-- Witness for C5 amended, at the Example-2 buffer with the cursor at 13. -/
theorem c5_invariant_amended_witness :
    (StrCursor.dec ⟨ex2Buf, 13⟩ 5).pos ≤ ex2Buf.length :=
  (c5_invariant_amended ⟨ex2Buf, 13⟩ (by decide) (by decide)
    5 none oneLit none none [] none).1

/-- C6 counterexample: on the buffer `"abc"` (no line feed) with the cursor
at 0 there is no next line, yet `line_end_position(None)` returns 2, the
start of the last character, not the end of buffer 3 that the claim
demands. -/
theorem c6_line_end_no_next_line :
    NewlineMetric.next [97, 98, 99] 0 = none ∧
    (StrCursor.line_end_position ⟨[97, 98, 99], 0⟩ none).1 = 2 ∧
    ¬ (StrCursor.line_end_position ⟨[97, 98, 99], 0⟩ none).1 =
        ([97, 98, 99] : List Nat).length := by decide

/-- C6 amended: when the current line has a terminating line feed (at
`t - 1`), `line_end_position(None)` returns `t - 1`, one before the next
line's start; when no line feed remains it returns one character-metric
step back from the end of buffer (`(CharMetric.prev len).getD 0`), not the
end of buffer itself; and the Example-2 values hold, including the
end-of-buffer case `n = 4` returning 26 on the 27-byte buffer. -/
theorem c6_line_end_position_spec :
    (∀ (s : List Nat) (pos t : Nat), NewlineMetric.next s pos = some t →
      (StrCursor.line_end_position ⟨s, pos⟩ none).1 = t - 1) ∧
    (∀ (s : List Nat) (pos : Nat), NewlineMetric.next s pos = none →
      (StrCursor.line_end_position ⟨s, pos⟩ none).1 =
        (CharMetric.prev s s.length).getD 0) ∧
    (StrCursor.line_end_position ⟨ex2Buf, 13⟩ (some (-3))).1 = 3 ∧
    (StrCursor.line_beginning_position ⟨ex2Buf, 13⟩ (some (-2))).1 = 0 ∧
    (StrCursor.line_end_position ⟨ex2Buf, 13⟩ (some 4)).1 = 26 :=
  ⟨line_end_position_next, line_end_position_at_end, by decide, by decide, by decide⟩

/-- Witness for C6 amended: on the Example-2 buffer at 13, the line feed
ending the current line is at 15, and `line_end_position(None)` returns
`16 - 1`. -/
theorem c6_line_end_position_spec_witness :
    (StrCursor.line_end_position ⟨ex2Buf, 13⟩ none).1 = 16 - 1 :=
  c6_line_end_position_spec.1 ex2Buf 13 16 (by decide)

/-- C7: the multiline classifier holds exactly when the pattern source
contains one of the substrings `\n`, `\r` (two characters each) or
`[[:space:]]`; and the scan window of `looking_at` (and `capturing_at`,
which shares the same window computation) is the rest of the buffer for a
line-spanning pattern and otherwise the maximal line-feed-free run from the
cursor — i.e. it ends at the line feed ending the current line, the line
feed itself excluded, or at end of buffer when the line is unterminated. -/
theorem c7_multiline_window :
    (∀ src : List Nat, StrCursor.is_multiline_regex src = true ↔
      (StrCursor.bsN <:+: src ∨ StrCursor.bsR <:+: src ∨
        StrCursor.spaceCls <:+: src)) ∧
    (∀ (c : StrCursor) (lit : List Nat),
      StrCursor.looking_at c lit =
        (StrCursor.firstMatch
          (if StrCursor.is_multiline_regex lit then c.data.drop c.pos
           else (c.data.drop c.pos).takeWhile (fun b => !(b == 10))) lit).map
          (fun j => (j, j + lit.length))) := by
  constructor
  · intro src
    unfold StrCursor.is_multiline_regex
    rw [Bool.or_eq_true, Bool.or_eq_true,
      containsSub_eq_true_iff, containsSub_eq_true_iff, containsSub_eq_true_iff]
    exact or_assoc
  · exact looking_at_window

/-- C8 counterexample: on the valid two-byte buffer `"é"` = `[0xC3, 0xA9]`
at the non-boundary offset 1, `next` returns 3 and `prev` at 3 returns 2,
not the original 1, although both queries are defined — so the round trip
fails for arbitrary offsets. -/
theorem c8_roundtrip_fails_offset :
    utf8Valid [195, 169] = true ∧
    CharMetric.next [195, 169] 1 = some 3 ∧
    CharMetric.prev [195, 169] 3 = some 2 ∧ ¬ (2 = 1) := by decide

/-- C8 amended: on a valid-UTF-8 buffer and at a character-boundary offset,
`CharMetric::next` followed by `CharMetric::prev` returns the original
offset whenever both are defined, and symmetrically `prev` followed by
`next`. -/
theorem c8_char_roundtrip (s : List Nat) (o : Nat) (hv : utf8Valid s = true)
    (hb : is_char_boundary s o = true) :
    (∀ m, CharMetric.next s o = some m → CharMetric.prev s m = some o) ∧
    (∀ a, CharMetric.prev s o = some a → CharMetric.next s a = some o) :=
  ⟨char_next_then_prev s o hv hb, char_prev_then_next s o hv hb⟩

/-- Witness for C8 amended at the buffer `"é"` and boundary offset 0:
`next 0 = some 2` and `prev 2 = some 0`. -/
theorem c8_char_roundtrip_witness : CharMetric.prev [195, 169] 2 = some 0 :=
  (c8_char_roundtrip [195, 169] 0 (by decide) (by decide)).1 2 (by decide)

/-- C9: `goto_line_begin` is idempotent — from any in-range position, a
second call returns the offset the first call returned and does not move
the cursor (the first call lands on offset 0 or on a newline-metric
boundary, which the second call leaves in place). -/
theorem c9_goto_line_begin_idem (c : StrCursor) (hc : c.pos ≤ c.data.length) :
    StrCursor.goto_line_begin ((StrCursor.goto_line_begin c).2) =
      ((StrCursor.goto_line_begin c).1, (StrCursor.goto_line_begin c).2) := by
  obtain ⟨p, hp, hland, -⟩ := goto_line_begin_spec c
  rw [hp]
  dsimp only
  apply goto_line_begin_stable
  rcases hland with h0 | hbd
  · exact Or.inl h0
  · exact Or.inr hbd

/-- Witness for C9 at the Example-2 buffer with the cursor at 13. -/
theorem c9_goto_line_begin_idem_witness :
    StrCursor.goto_line_begin ((StrCursor.goto_line_begin ⟨ex2Buf, 13⟩).2) =
      ((StrCursor.goto_line_begin ⟨ex2Buf, 13⟩).1,
        (StrCursor.goto_line_begin ⟨ex2Buf, 13⟩).2) :=
  c9_goto_line_begin_idem ⟨ex2Buf, 13⟩ (by decide)

/-- C10: `search_forward` with `count = Some 0` always fails and leaves the
cursor unchanged: the occurrence index starts at 1 and only increments, so
a zero count is never satisfied and is not treated as the default of 1. -/
theorem c10_search_forward_count_zero (c : StrCursor) (lit : List Nat)
    (bound : Option Nat) :
    StrCursor.search_forward c lit bound (some 0) = (none, c) := by
  unfold StrCursor.search_forward
  dsimp only
  simp only [Option.getD_some]
  split
  · rfl
  · rw [searchForwardGo_none_of_lt c.pos lit.length
      ((bound.getD c.data.length)) 0 _ 1 (by omega)]

end OrgCursor
